import Mathlib

/-!
Shallow embedding of the Immie2d shared data-structure core
(`src/immie2d_shared`): the process-wide string interner
(`engine_types/global_string.rs`), the ability registry
(`gameplay/ability/ability_map.rs`), and the two bounded unique tag sets
(`gameplay/ability/ability_names.rs` and
`gameplay/elements/elements_data.rs`).

The global mutable state of the interner is embedded by explicit state
passing: each Rust function that touches the `lazy_static` global becomes a
Lean function taking and (where the Rust body can write) returning a
`GlobalStringMaps` state.  Rust `panic!`/`assert!` aborts become `Except`
errors.  Rust `HashMap`s become association lists with `HashMap::insert`
semantics (replace the value of an existing key, return the old value).
-/

set_option autoImplicit false

namespace Immie2d

/-! ## Association lists standing in for `std::collections::HashMap`

`alGet` is `HashMap::get`; `alInsertRet` is `HashMap::insert`, which
replaces the value stored under an existing key and returns the previous
value (`Option`).  A `HashMap` never holds two entries for one key, which
for the association-list image means the key list is `Nodup`; lemmas that
need it take it as a hypothesis. -/

def alGet {α : Type} : List (String × α) → String → Option α
  | [], _ => none
  | (k', v') :: rest, k => if k' = k then some v' else alGet rest k

def alInsertRet {α : Type} : List (String × α) → String → α → Option α × List (String × α)
  | [], k, v => (none, [(k, v)])
  | (k', v') :: rest, k, v =>
    if k' = k then (some v', (k, v) :: rest)
    else
      let r := alInsertRet rest k v
      (r.1, (k', v') :: r.2)

/-! ## String interner (`global_string.rs`) -/

/-- The fields of the `lazy_static` global `GLOBAL_STRING_MAP`:
forward map text → id, reverse table `vec`, and `next_id`
(`u32` in the source; modelled as `Nat`, since no claim involves
`u32` wraparound). -/
structure GlobalStringMaps where
  map : List (String × Nat)
  vec : List String
  next_id : Nat
deriving DecidableEq

/-- `GLOBAL_STRING_MAP` right after lazy initialisation: the empty string is
pre-interned with id 0 and `next_id` is 1. -/
def initMaps : GlobalStringMaps :=
  { map := [("", 0)], vec := [""], next_id := 1 }

/-- A handle into the interner: just the `u32` slot index. -/
structure GlobalString where
  string_id : Nat
deriving DecidableEq

/-- `GlobalString::default()`: handle 0. -/
def GlobalString.default : GlobalString := ⟨0⟩

/-- `GlobalString::new`.  Note the faithful translation of the source's
`maps.map.insert(in_string.clone(), next_id)`: the insert happens *before*
the existence check, so when the string is already present its map entry is
overwritten with the current `next_id` (while `vec` and `next_id` stay
unchanged) and the *old* id is returned. -/
def GlobalString.new (in_string : String) (st : GlobalStringMaps) :
    GlobalString × GlobalStringMaps :=
  let next_id := st.next_id
  let ins := alInsertRet st.map in_string next_id
  match ins.1 with
  | some old => (⟨old⟩, { st with map := ins.2 })
  | none =>
      (⟨next_id⟩,
        { map := ins.2, vec := st.vec ++ [in_string], next_id := next_id + 1 })

/-- `GlobalString::new_if_exists`: looks the text up in the forward map and
returns `GlobalString::default()` when absent; the lock is only read, so the
state comes back unchanged. -/
def GlobalString.new_if_exists (in_string : String) (st : GlobalStringMaps) :
    GlobalString × GlobalStringMaps :=
  match alGet st.map in_string with
  | none => (GlobalString.default, st)
  | some id => (⟨id⟩, st)

/-- `GlobalString::to_string`: indexes `vec` by the held id.  The Rust
indexing panics when the id is out of bounds; that panic is `none` here. -/
def GlobalString.to_string (g : GlobalString) (st : GlobalStringMaps) :
    Option String :=
  st.vec.get? g.string_id

/-! ## Ability registry (`ability_map.rs`) -/

/-- A concrete implementation of the `Ability` trait, as the registry sees
it: its `T::static_name()` and its `T::new` constructor function pointer.
Distinct constructors are distinguished by the opaque `ctor` id; the boxed
instance `T::new()` produces is identified with the kind that made it. -/
structure AbilityKind where
  static_name : String
  ctor : Nat
deriving DecidableEq

/-- The error behind `new_ability`'s `.expect("Ability name [..] is not valid")`. -/
inductive AbilityMapError where
  | nameNotFound
deriving DecidableEq

structure AbilityMap where
  map : List (String × AbilityKind)
deriving DecidableEq

/-- `AbilityMap::new()`. -/
def AbilityMap.new : AbilityMap := ⟨[]⟩

/-- `AbilityMap::add_ability::<T>()`: `self.map.insert(T::static_name(), T::new)`,
discarding any previous entry for the name. -/
def AbilityMap.add_ability (m : AbilityMap) (k : AbilityKind) : AbilityMap :=
  ⟨(alInsertRet m.map k.static_name k).2⟩

/-- `AbilityMap::new_ability`: look up the constructor and invoke it; the
`.expect` panic on a missing name is the `nameNotFound` error. -/
def AbilityMap.new_ability (m : AbilityMap) (name : String) :
    Except AbilityMapError AbilityKind :=
  match alGet m.map name with
  | none => .error .nameNotFound
  | some entry => .ok entry

/-- `AbilityMap::is_ability_name`: `self.map.contains_key(name)`. -/
def AbilityMap.is_ability_name (m : AbilityMap) (name : String) : Bool :=
  (alGet m.map name).isSome

/-! ## Tag-set failures

One error type for both tag-set instantiations.  `duplicateTag`,
`capacityExceeded` and `invalidTagValue` are the named `assert!` panics;
`emptyList` is `Elements::new`'s `assert!(in_Elementss.len() > 0)`;
`boundsPanic` is the out-of-bounds write in `Elements::add_Elements`
(a `debug_assert!` in debug builds, the array bounds check in release). -/
inductive TagErr where
  | duplicateTag
  | capacityExceeded
  | invalidTagValue
  | emptyList
  | boundsPanic
deriving DecidableEq

/-! ## Ability name tag set (`ability_names.rs`) -/

def MAX_ABILITIES_COUNT : Nat := 5

/-- `AbilityNames`: the fixed array `[GlobalString; 5]` is a `List` whose
length stays 5 (established by `default`, preserved by `List.set`). -/
structure AbilityNames where
  names : List GlobalString
  count : Nat
deriving DecidableEq

/-- `AbilityNames::default()`. -/
def AbilityNames.default : AbilityNames :=
  ⟨List.replicate MAX_ABILITIES_COUNT GlobalString.default, 0⟩

/-- The first `count` stored entries — the members the reading loops
(`has_ability`, `get_names`, the iterator) traverse. -/
def AbilityNames.members (s : AbilityNames) : List GlobalString :=
  s.names.take s.count

/-- `AbilityNames::has_ability`: the linear scan of `names[0..count]`. -/
def AbilityNames.has_ability (s : AbilityNames) (x : GlobalString) : Bool :=
  decide (x ∈ s.members)

/-- `AbilityNames::add_ability`: duplicate assert first, then the capacity
assert, then `names[count] = x; count += 1`.  There is no sentinel check. -/
def AbilityNames.add_ability (s : AbilityNames) (x : GlobalString) :
    Except TagErr AbilityNames :=
  if s.has_ability x then .error .duplicateTag
  else if s.count < MAX_ABILITIES_COUNT then
    .ok ⟨s.names.set s.count x, s.count + 1⟩
  else .error .capacityExceeded

/-- The `for name in in_abilities { ability_names.add_ability(name) }` loop
of `AbilityNames::new`. -/
def AbilityNames.addAll (s : AbilityNames) : List GlobalString → Except TagErr AbilityNames
  | [] => .ok s
  | x :: xs =>
    match s.add_ability x with
    | .ok s' => s'.addAll xs
    | .error e => .error e

/-- `AbilityNames::new`: the length assert, then sequential insertion into a
fresh default instance. -/
def AbilityNames.new (l : List GlobalString) : Except TagErr AbilityNames :=
  if l.length ≤ MAX_ABILITIES_COUNT then AbilityNames.default.addAll l
  else .error .capacityExceeded

/-- `AbilityNames::get_count`. -/
def AbilityNames.get_count (s : AbilityNames) : Nat := s.count

/-- `AbilityNames::get_names`: the push loop reading `names[i]` for
`i in 0..count` (the same reads the iterator performs).  Out-of-bounds reads
— impossible in well-formed states — fall back to the default handle where
Rust would panic. -/
def AbilityNames.get_names (s : AbilityNames) : List GlobalString :=
  (List.range s.count).map fun i => s.names.getD i GlobalString.default

/-! ## Element tag set (`element_kinds.rs`, `elements_data.rs`) -/

inductive ElementKind where
  | Invalid
  | Standard
  | Fire
  | Water
  | Nature
  | Electric
  | Air
  | Ground
  | Metal
  | Light
  | Dark
  | Dragon
deriving DecidableEq, Fintype

def ELEMENT_COUNT : Nat := 11

/-- `Elements`: `elements_count: u8` plus the fixed array
`[ElementKind; ELEMENT_COUNT]`, the latter a `List` whose length stays 11. -/
structure Elements where
  elements_count : Nat
  elements : List ElementKind
deriving DecidableEq

/-- The first `elements_count` stored entries. -/
def Elements.members (s : Elements) : List ElementKind :=
  s.elements.take s.elements_count

/-- `Elements::has_Elements`: the linear scan of `elements[0..elements_count]`. -/
def Elements.has_Elements (s : Elements) (x : ElementKind) : Bool :=
  decide (x ∈ s.members)

/-- `Elements::add_Elements`: duplicate assert, then the `Invalid` assert,
then the write `elements[elements_count] = x`.  The capacity check is only a
`debug_assert!`; in release the write itself panics when
`elements_count ≥ 11`, and both aborts are the `boundsPanic` error. -/
def Elements.add_Elements (s : Elements) (x : ElementKind) :
    Except TagErr Elements :=
  if s.has_Elements x then .error .duplicateTag
  else if x = ElementKind.Invalid then .error .invalidTagValue
  else if s.elements_count < ELEMENT_COUNT then
    .ok ⟨s.elements_count + 1, s.elements.set s.elements_count x⟩
  else .error .boundsPanic

/-- The `for t in in_Elementss { assert!(t != Invalid); add_Elements(t) }`
loop of `Elements::new`: the loop re-checks `Invalid` before each add. -/
def Elements.addAll (s : Elements) : List ElementKind → Except TagErr Elements
  | [] => .ok s
  | x :: xs =>
    if x = ElementKind.Invalid then .error .invalidTagValue
    else
      match s.add_Elements x with
      | .ok s' => s'.addAll xs
      | .error e => .error e

/-- `Elements::new`: `assert!(in_Elementss.len() > 0)` (so the empty list
fails), then sequential insertion into a zero-count array of `Invalid`.
There is no capacity check. -/
def Elements.new (l : List ElementKind) : Except TagErr Elements :=
  if l.length = 0 then .error .emptyList
  else Elements.addAll ⟨0, List.replicate ELEMENT_COUNT ElementKind.Invalid⟩ l

/-- `Elements::get_Elements_count`. -/
def Elements.get_Elements_count (s : Elements) : Nat := s.elements_count

/-- `Elements::get_Elementss`: accumulates the iterator
(`ElementIter::next` yields `elements[index]` for `index in 0..count`).
Out-of-bounds reads — impossible in well-formed states — fall back to
`Invalid` where Rust would panic. -/
def Elements.get_Elementss (s : Elements) : List ElementKind :=
  (List.range s.elements_count).map fun i => s.elements.getD i ElementKind.Invalid

/-! ## Well-formedness of the tag sets -/

/-- The representation invariant of `AbilityNames`: the backing array keeps
its fixed length 5, the count never exceeds the capacity, and the first
`count` entries are pairwise distinct. -/
def AbilityNames.WF (s : AbilityNames) : Prop :=
  s.names.length = MAX_ABILITIES_COUNT ∧
  s.count ≤ MAX_ABILITIES_COUNT ∧
  s.members.Nodup

instance (s : AbilityNames) : Decidable s.WF := by
  unfold AbilityNames.WF; infer_instance

/-- The representation invariant of `Elements`: fixed length 11, count
within capacity, the first `count` entries pairwise distinct and none of
them the `Invalid` sentinel. -/
def Elements.WF (s : Elements) : Prop :=
  s.elements.length = ELEMENT_COUNT ∧
  s.elements_count ≤ ELEMENT_COUNT ∧
  s.members.Nodup ∧
  ∀ x ∈ s.members, x ≠ ElementKind.Invalid

instance (s : Elements) : Decidable s.WF := by
  unfold Elements.WF; infer_instance

/-- The number of registry entries stored under a key. -/
def countKey {α : Type} (m : List (String × α)) (k : String) : Nat :=
  (m.filter fun p => decide (p.1 = k)).length

/-! ## Association-list lemmas -/

theorem alInsertRet_fst {α : Type} (m : List (String × α)) (k : String) (v : α) :
    (alInsertRet m k v).1 = alGet m k := by
  induction m with
  | nil => rfl
  | cons p rest ih =>
    obtain ⟨k', v'⟩ := p
    by_cases h : k' = k <;> simp [alInsertRet, alGet, h, ih]

theorem alGet_insertRet_self {α : Type} (m : List (String × α)) (k : String) (v : α) :
    alGet (alInsertRet m k v).2 k = some v := by
  induction m with
  | nil => simp [alInsertRet, alGet]
  | cons p rest ih =>
    obtain ⟨k', v'⟩ := p
    by_cases h : k' = k <;> simp [alInsertRet, alGet, h, ih]

theorem alInsertRet_cons_pos {α : Type} (rest : List (String × α)) (k' k : String)
    (v' v : α) (h : k' = k) :
    alInsertRet ((k', v') :: rest) k v = (some v', (k, v) :: rest) := by
  simp [alInsertRet, h]

theorem alInsertRet_cons_neg {α : Type} (rest : List (String × α)) (k' k : String)
    (v' v : α) (h : ¬k' = k) :
    alInsertRet ((k', v') :: rest) k v =
      ((alInsertRet rest k v).1, (k', v') :: (alInsertRet rest k v).2) := by
  simp [alInsertRet, h]

theorem mem_keys_insertRet {α : Type} (m : List (String × α)) (k : String) (v : α)
    (a : String) (ha : a ∈ (alInsertRet m k v).2.map Prod.fst) :
    a ∈ m.map Prod.fst ∨ a = k := by
  induction m with
  | nil =>
    rw [show (alInsertRet ([] : List (String × α)) k v) = (none, [(k, v)]) from rfl] at ha
    simp only [List.map_cons, List.map_nil, List.mem_singleton] at ha
    exact Or.inr ha
  | cons p rest ih =>
    obtain ⟨k', v'⟩ := p
    by_cases h : k' = k
    · rw [alInsertRet_cons_pos rest k' k v' v h] at ha
      simp only [List.map_cons, List.mem_cons] at ha
      rcases ha with ha | ha
      · exact Or.inr ha
      · exact Or.inl (List.mem_cons_of_mem _ ha)
    · rw [alInsertRet_cons_neg rest k' k v' v h] at ha
      simp only [List.map_cons, List.mem_cons] at ha
      rcases ha with ha | ha
      · exact Or.inl (by rw [List.map_cons, ha]; exact List.mem_cons_self _ _)
      · rcases ih ha with h' | h'
        · exact Or.inl (by rw [List.map_cons]; exact List.mem_cons_of_mem _ h')
        · exact Or.inr h'

theorem keys_nodup_insertRet {α : Type} (m : List (String × α)) (k : String) (v : α)
    (h : (m.map Prod.fst).Nodup) : ((alInsertRet m k v).2.map Prod.fst).Nodup := by
  induction m with
  | nil => simp [alInsertRet]
  | cons p rest ih =>
    obtain ⟨k', v'⟩ := p
    simp only [List.map_cons, List.nodup_cons] at h
    by_cases hk : k' = k
    · subst hk
      simpa [alInsertRet] using h
    · simp only [alInsertRet, if_neg hk, List.map_cons, List.nodup_cons]
      refine ⟨fun hmem => ?_, ih h.2⟩
      rcases mem_keys_insertRet rest k v k' hmem with h' | h'
      · exact h.1 h'
      · exact hk h'

theorem countKey_eq_zero {α : Type} (m : List (String × α)) (k : String)
    (h : k ∉ m.map Prod.fst) : countKey m k = 0 := by
  induction m with
  | nil => rfl
  | cons p rest ih =>
    obtain ⟨k', v'⟩ := p
    simp only [List.map_cons, List.mem_cons, not_or] at h
    have hk : ¬(k' = k) := fun hc => h.1 hc.symm
    have hck : countKey ((k', v') :: rest) k = countKey rest k := by
      simp [countKey, List.filter_cons, hk]
    rw [hck]
    exact ih h.2

theorem countKey_insertRet {α : Type} (m : List (String × α)) (k : String) (v : α)
    (h : (m.map Prod.fst).Nodup) : countKey ((alInsertRet m k v).2) k = 1 := by
  induction m with
  | nil => simp [alInsertRet, countKey, List.filter_cons]
  | cons p rest ih =>
    obtain ⟨k', v'⟩ := p
    simp only [List.map_cons, List.nodup_cons] at h
    by_cases hk : k' = k
    · subst hk
      rw [alInsertRet_cons_pos rest k' k' v' v rfl]
      have hz : countKey rest k' = 0 := countKey_eq_zero rest k' h.1
      unfold countKey at hz ⊢
      rw [List.filter_cons]
      simp [hz]
    · rw [alInsertRet_cons_neg rest k' k v' v hk]
      have hck : countKey ((k', v') :: (alInsertRet rest k v).2) k =
          countKey (alInsertRet rest k v).2 k := by
        simp [countKey, List.filter_cons, hk]
      rw [hck]
      exact ih h.2


/-! ## List lemmas for the array-plus-count representation -/

theorem take_set_eq_append {α : Type} (l : List α) (n : Nat) (x : α)
    (h : n < l.length) : (l.set n x).take (n + 1) = l.take n ++ [x] := by
  induction l generalizing n with
  | nil => simp at h
  | cons a as ih =>
    cases n with
    | zero => simp
    | succ m =>
      have h' : m < as.length := by simpa using h
      simp only [List.set_cons_succ, List.take_succ_cons, List.cons_append,
        List.cons.injEq, true_and]
      exact ih m h'

theorem range_map_getD_eq_take {α : Type} (l : List α) (d : α) (n : Nat)
    (h : n ≤ l.length) :
    (List.range n).map (fun i => l.getD i d) = l.take n := by
  induction n with
  | zero => simp
  | succ m ih =>
    have hm : m ≤ l.length := Nat.le_of_succ_le h
    have hlt : m < l.length := h
    rw [List.range_succ, List.map_append, ih hm, List.take_succ]
    have hsome : l[m]? = some l[m] := List.getElem?_eq_getElem hlt
    simp [List.getD_eq_getElem?_getD, hsome]

/-! ## AbilityNames lemmas -/

theorem AbilityNames.add_dup (s : AbilityNames) (x : GlobalString)
    (h1 : x ∈ s.members) : s.add_ability x = .error .duplicateTag := by
  simp [AbilityNames.add_ability, AbilityNames.has_ability, h1]

theorem AbilityNames.add_cap (s : AbilityNames) (x : GlobalString)
    (h1 : x ∉ s.members) (h2 : ¬s.count < MAX_ABILITIES_COUNT) :
    s.add_ability x = .error .capacityExceeded := by
  simp [AbilityNames.add_ability, AbilityNames.has_ability, h1, h2]

theorem AbilityNames.add_mk_ok (s : AbilityNames) (x : GlobalString)
    (h1 : x ∉ s.members) (h2 : s.count < MAX_ABILITIES_COUNT) :
    s.add_ability x = .ok ⟨s.names.set s.count x, s.count + 1⟩ := by
  simp [AbilityNames.add_ability, AbilityNames.has_ability, h1, h2]

theorem AbilityNames.add_ok_inv (s : AbilityNames) (x : GlobalString)
    (t : AbilityNames) (h : s.add_ability x = .ok t) :
    x ∉ s.members ∧ s.count < MAX_ABILITIES_COUNT ∧
      t = ⟨s.names.set s.count x, s.count + 1⟩ := by
  by_cases h1 : x ∈ s.members
  · rw [AbilityNames.add_dup s x h1] at h
    exact Except.noConfusion h
  · by_cases h2 : s.count < MAX_ABILITIES_COUNT
    · rw [AbilityNames.add_mk_ok s x h1 h2] at h
      exact ⟨h1, h2, (Except.ok.inj h).symm⟩
    · rw [AbilityNames.add_cap s x h1 h2] at h
      exact Except.noConfusion h

theorem AbilityNames.members_mk (s : AbilityNames) (x : GlobalString)
    (h : s.count < s.names.length) :
    (AbilityNames.mk (s.names.set s.count x) (s.count + 1)).members =
      s.members ++ [x] :=
  take_set_eq_append s.names s.count x h

theorem AbilityNames.wf_add (s : AbilityNames) (x : GlobalString)
    (t : AbilityNames) (hwf : s.WF) (h : s.add_ability x = .ok t) :
    t.WF ∧ t.members = s.members ++ [x] ∧ t.count = s.count + 1 := by
  obtain ⟨hx, hc, ht⟩ := AbilityNames.add_ok_inv s x t h
  obtain ⟨hlen, hcnt, hnd⟩ := hwf
  have hmem : t.members = s.members ++ [x] := by
    rw [ht]
    exact AbilityNames.members_mk s x (by rw [hlen]; exact hc)
  refine ⟨⟨?_, ?_, ?_⟩, hmem, by rw [ht]⟩
  · rw [ht]
    simpa [List.length_set] using hlen
  · rw [ht]
    exact Nat.succ_le_of_lt hc
  · rw [hmem]
    refine List.Nodup.append hnd (List.nodup_singleton x) ?_
    intro a ha hb
    rw [List.mem_singleton] at hb
    subst hb
    exact hx ha

theorem AbilityNames.addAll_cons_ok (s s' : AbilityNames) (x : GlobalString)
    (xs : List GlobalString) (h : s.add_ability x = .ok s') :
    s.addAll (x :: xs) = s'.addAll xs := by
  simp [AbilityNames.addAll, h]

theorem AbilityNames.addAll_cons_err (s : AbilityNames) (x : GlobalString)
    (xs : List GlobalString) (e : TagErr) (h : s.add_ability x = .error e) :
    s.addAll (x :: xs) = .error e := by
  simp [AbilityNames.addAll, h]

theorem AbilityNames.addAll_ok_inv (l : List GlobalString) :
    ∀ s t : AbilityNames, s.WF → s.addAll l = .ok t →
      t.WF ∧ t.members = s.members ++ l ∧ t.count = s.count + l.length := by
  induction l with
  | nil =>
    intro s t hwf h
    cases Except.ok.inj h
    exact ⟨hwf, by simp, by simp⟩
  | cons x xs ih =>
    intro s t hwf h
    cases hadd : s.add_ability x with
    | error e =>
      rw [AbilityNames.addAll_cons_err s x xs e hadd] at h
      exact Except.noConfusion h
    | ok s' =>
      rw [AbilityNames.addAll_cons_ok s s' x xs hadd] at h
      obtain ⟨hwf', hm', hc'⟩ := AbilityNames.wf_add s x s' hwf hadd
      obtain ⟨hwt, hmt, hct⟩ := ih s' t hwf' h
      refine ⟨hwt, ?_, ?_⟩
      · rw [hmt, hm']
        exact (List.append_cons s.members x xs).symm
      · rw [hct, hc', List.length_cons]
        omega

theorem AbilityNames.addAll_ex (l : List GlobalString) :
    ∀ s : AbilityNames, s.WF → l.Nodup → (∀ x ∈ l, x ∉ s.members) →
      s.count + l.length ≤ MAX_ABILITIES_COUNT →
      ∃ t, s.addAll l = .ok t := by
  induction l with
  | nil =>
    intro s _ _ _ _
    exact ⟨s, rfl⟩
  | cons x xs ih =>
    intro s hwf hnd hdis hcap
    have hx : x ∉ s.members := hdis x (List.mem_cons_self x xs)
    have hc : s.count < MAX_ABILITIES_COUNT := by
      rw [List.length_cons] at hcap
      omega
    have hadd := AbilityNames.add_mk_ok s x hx hc
    obtain ⟨hwf', hm', hc'⟩ :=
      AbilityNames.wf_add s x ⟨s.names.set s.count x, s.count + 1⟩ hwf hadd
    have hxxs : x ∉ xs := (List.nodup_cons.mp hnd).1
    have hdis2 : ∀ y ∈ xs,
        y ∉ (AbilityNames.mk (s.names.set s.count x) (s.count + 1)).members := by
      intro y hy
      rw [hm', List.mem_append, List.mem_singleton]
      push_neg
      exact ⟨hdis y (List.mem_cons_of_mem x hy), fun hyx => hxxs (hyx ▸ hy)⟩
    have hcap2 :
        (AbilityNames.mk (s.names.set s.count x) (s.count + 1)).count + xs.length ≤
          MAX_ABILITIES_COUNT := by
      show s.count + 1 + xs.length ≤ _
      rw [List.length_cons] at hcap
      omega
    obtain ⟨t, ht⟩ := ih _ hwf' (List.nodup_cons.mp hnd).2 hdis2 hcap2
    exact ⟨t, by rw [AbilityNames.addAll_cons_ok s _ x xs hadd]; exact ht⟩

theorem AbilityNames.addAll_dup (l : List GlobalString) :
    ∀ s : AbilityNames, s.WF → s.count + l.length ≤ MAX_ABILITIES_COUNT →
      ¬(l.Nodup ∧ ∀ x ∈ l, x ∉ s.members) →
      s.addAll l = .error .duplicateTag := by
  induction l with
  | nil =>
    intro s _ _ hcon
    exact absurd ⟨List.nodup_nil, by simp⟩ hcon
  | cons x xs ih =>
    intro s hwf hcap hcon
    by_cases hx : x ∈ s.members
    · exact AbilityNames.addAll_cons_err s x xs _ (AbilityNames.add_dup s x hx)
    · have hc : s.count < MAX_ABILITIES_COUNT := by
        rw [List.length_cons] at hcap
        omega
      have hadd := AbilityNames.add_mk_ok s x hx hc
      obtain ⟨hwf', hm', hc'⟩ := AbilityNames.wf_add s x _ hwf hadd
      rw [AbilityNames.addAll_cons_ok s _ x xs hadd]
      refine ih _ hwf' ?_ ?_
      · rw [hc']
        rw [List.length_cons] at hcap
        omega
      · rintro ⟨hnd', hdis'⟩
        apply hcon
        constructor
        · refine List.nodup_cons.mpr ⟨fun hxxs => ?_, hnd'⟩
          have hni := hdis' x hxxs
          rw [hm'] at hni
          exact hni (by simp)
        · intro y hy
          rcases List.mem_cons.mp hy with rfl | hyxs
          · exact hx
          · have hni := hdis' y hyxs
            rw [hm', List.mem_append] at hni
            push_neg at hni
            exact hni.1

theorem AbilityNames.default_wf : AbilityNames.default.WF := by decide

theorem AbilityNames.get_names_eq (s : AbilityNames) (hwf : s.WF) :
    s.get_names = s.members := by
  obtain ⟨hlen, hcnt, _⟩ := hwf
  exact range_map_getD_eq_take s.names GlobalString.default s.count
    (by rw [hlen]; exact hcnt)

theorem AbilityNames.new_cap (l : List GlobalString)
    (h : MAX_ABILITIES_COUNT < l.length) :
    AbilityNames.new l = .error .capacityExceeded := by
  unfold AbilityNames.new
  rw [if_neg (Nat.not_le.mpr h)]

theorem AbilityNames.new_ok (l : List GlobalString)
    (hle : l.length ≤ MAX_ABILITIES_COUNT) (hnd : l.Nodup) :
    ∃ t, AbilityNames.new l = .ok t ∧ t.WF ∧ t.members = l ∧
      t.count = l.length := by
  have hdis : ∀ x ∈ l, x ∉ AbilityNames.default.members := by
    intro x _ hx
    simp [AbilityNames.default, AbilityNames.members] at hx
  obtain ⟨t, ht⟩ := AbilityNames.addAll_ex l AbilityNames.default
    AbilityNames.default_wf hnd hdis (by simpa [AbilityNames.default] using hle)
  obtain ⟨hwt, hmt, hct⟩ :=
    AbilityNames.addAll_ok_inv l AbilityNames.default t AbilityNames.default_wf ht
  refine ⟨t, ?_, hwt, ?_, ?_⟩
  · unfold AbilityNames.new
    rw [if_pos hle]
    exact ht
  · simpa [AbilityNames.default, AbilityNames.members] using hmt
  · simpa [AbilityNames.default] using hct

theorem AbilityNames.new_dup (l : List GlobalString)
    (hle : l.length ≤ MAX_ABILITIES_COUNT) (hnd : ¬l.Nodup) :
    AbilityNames.new l = .error .duplicateTag := by
  unfold AbilityNames.new
  rw [if_pos hle]
  exact AbilityNames.addAll_dup l AbilityNames.default AbilityNames.default_wf
    (by simpa [AbilityNames.default] using hle) (fun hcon => hnd hcon.1)

theorem AbilityNames.new_ok_inv (l : List GlobalString) (t : AbilityNames)
    (h : AbilityNames.new l = .ok t) :
    t.WF ∧ t.members = l ∧ t.count = l.length := by
  unfold AbilityNames.new at h
  by_cases hle : l.length ≤ MAX_ABILITIES_COUNT
  · rw [if_pos hle] at h
    obtain ⟨hwt, hmt, hct⟩ :=
      AbilityNames.addAll_ok_inv l AbilityNames.default t AbilityNames.default_wf h
    refine ⟨hwt, ?_, ?_⟩
    · simpa [AbilityNames.default, AbilityNames.members] using hmt
    · simpa [AbilityNames.default] using hct
  · rw [if_neg hle] at h
    exact Except.noConfusion h

/-! ## Elements lemmas -/

/-- Pigeonhole over the element enumeration: a duplicate-free list of
non-`Invalid` element kinds has at most `ELEMENT_COUNT = 11` entries,
because only 11 such kinds exist. -/
theorem elementList_length_le (l : List ElementKind) (hnd : l.Nodup)
    (hinv : ∀ x ∈ l, x ≠ ElementKind.Invalid) : l.length ≤ ELEMENT_COUNT := by
  have h1 : l.toFinset.card = l.length := List.toFinset_card_of_nodup hnd
  have h2 : l.toFinset ⊆ Finset.univ.erase ElementKind.Invalid := by
    intro a ha
    exact Finset.mem_erase.mpr ⟨hinv a (List.mem_toFinset.mp ha), Finset.mem_univ a⟩
  have h3 := Finset.card_le_card h2
  have h4 : (Finset.univ.erase ElementKind.Invalid).card = ELEMENT_COUNT := by decide
  omega

theorem Elements.members_length (s : Elements) (hwf : s.WF) :
    s.members.length = s.elements_count := by
  obtain ⟨hlen, hcnt, _, _⟩ := hwf
  show (s.elements.take s.elements_count).length = _
  rw [List.length_take, hlen]
  exact Nat.min_eq_left hcnt

/-- From a well-formed set, any non-member non-sentinel kind leaves room:
the count is strictly below the capacity. -/
theorem Elements.count_lt (s : Elements) (x : ElementKind) (hwf : s.WF)
    (hx : x ∉ s.members) (hxi : x ≠ ElementKind.Invalid) :
    s.elements_count < ELEMENT_COUNT := by
  have hml := Elements.members_length s hwf
  obtain ⟨hlen, hcnt, hnd, hinv⟩ := hwf
  have hle := elementList_length_le (x :: s.members)
    (List.nodup_cons.mpr ⟨hx, hnd⟩) ?_
  · rw [List.length_cons, hml] at hle
    omega
  · intro y hy
    rcases List.mem_cons.mp hy with rfl | hym
    · exact hxi
    · exact hinv y hym

theorem Elements.add_dup_el (s : Elements) (x : ElementKind)
    (h1 : x ∈ s.members) : s.add_Elements x = .error .duplicateTag := by
  simp [Elements.add_Elements, Elements.has_Elements, h1]

theorem Elements.add_invalid (s : Elements)
    (h1 : ElementKind.Invalid ∉ s.members) :
    s.add_Elements ElementKind.Invalid = .error .invalidTagValue := by
  simp [Elements.add_Elements, Elements.has_Elements, h1]

theorem Elements.add_mk_ok_el (s : Elements) (x : ElementKind)
    (h1 : x ∉ s.members) (h2 : x ≠ ElementKind.Invalid)
    (h3 : s.elements_count < ELEMENT_COUNT) :
    s.add_Elements x = .ok ⟨s.elements_count + 1, s.elements.set s.elements_count x⟩ := by
  simp [Elements.add_Elements, Elements.has_Elements, h1, h2, h3]

theorem Elements.add_bounds (s : Elements) (x : ElementKind)
    (h1 : x ∉ s.members) (h2 : x ≠ ElementKind.Invalid)
    (h3 : ¬s.elements_count < ELEMENT_COUNT) :
    s.add_Elements x = .error .boundsPanic := by
  simp [Elements.add_Elements, Elements.has_Elements, h1, h2, h3]

theorem Elements.add_ok_inv_el (s : Elements) (x : ElementKind) (t : Elements)
    (h : s.add_Elements x = .ok t) :
    x ∉ s.members ∧ x ≠ ElementKind.Invalid ∧
      s.elements_count < ELEMENT_COUNT ∧
      t = ⟨s.elements_count + 1, s.elements.set s.elements_count x⟩ := by
  by_cases h1 : x ∈ s.members
  · rw [Elements.add_dup_el s x h1] at h
    exact Except.noConfusion h
  · by_cases h2 : x = ElementKind.Invalid
    · subst h2
      rw [Elements.add_invalid s h1] at h
      exact Except.noConfusion h
    · by_cases h3 : s.elements_count < ELEMENT_COUNT
      · rw [Elements.add_mk_ok_el s x h1 h2 h3] at h
        exact ⟨h1, h2, h3, (Except.ok.inj h).symm⟩
      · rw [Elements.add_bounds s x h1 h2 h3] at h
        exact Except.noConfusion h

/-- `add_Elements` never reports a capacity failure: its only error paths
are the duplicate assert, the `Invalid` assert and the bounds panic. -/
theorem Elements.add_ne_cap (s : Elements) (x : ElementKind) :
    s.add_Elements x ≠ .error .capacityExceeded := by
  unfold Elements.add_Elements
  intro h
  split at h
  · exact absurd (Except.error.inj h) (by decide)
  · split at h
    · exact absurd (Except.error.inj h) (by decide)
    · split at h
      · exact Except.noConfusion h
      · exact absurd (Except.error.inj h) (by decide)

theorem Elements.members_mk_el (s : Elements) (x : ElementKind)
    (h : s.elements_count < s.elements.length) :
    (Elements.mk (s.elements_count + 1) (s.elements.set s.elements_count x)).members =
      s.members ++ [x] :=
  take_set_eq_append s.elements s.elements_count x h

theorem Elements.wf_add_el (s : Elements) (x : ElementKind) (t : Elements)
    (hwf : s.WF) (h : s.add_Elements x = .ok t) :
    t.WF ∧ t.members = s.members ++ [x] ∧
      t.elements_count = s.elements_count + 1 := by
  obtain ⟨hx, hxi, hc, ht⟩ := Elements.add_ok_inv_el s x t h
  obtain ⟨hlen, hcnt, hnd, hinv⟩ := hwf
  have hmem : t.members = s.members ++ [x] := by
    rw [ht]
    exact Elements.members_mk_el s x (by rw [hlen]; exact hc)
  refine ⟨⟨?_, ?_, ?_, ?_⟩, hmem, by rw [ht]⟩
  · rw [ht]
    simpa [List.length_set] using hlen
  · rw [ht]
    exact Nat.succ_le_of_lt hc
  · rw [hmem]
    refine List.Nodup.append hnd (List.nodup_singleton x) ?_
    intro a ha hb
    rw [List.mem_singleton] at hb
    subst hb
    exact hx ha
  · rw [hmem]
    intro y hy
    rcases List.mem_append.mp hy with hym | hyx
    · exact hinv y hym
    · rw [List.mem_singleton] at hyx
      subst hyx
      exact hxi

theorem Elements.addAll_cons_invalid (s : Elements) (xs : List ElementKind) :
    s.addAll (ElementKind.Invalid :: xs) = .error .invalidTagValue := by
  simp [Elements.addAll]

theorem Elements.addAll_cons_ok_el (s s' : Elements) (x : ElementKind)
    (xs : List ElementKind) (hx : x ≠ ElementKind.Invalid)
    (h : s.add_Elements x = .ok s') :
    s.addAll (x :: xs) = s'.addAll xs := by
  simp [Elements.addAll, hx, h]

theorem Elements.addAll_cons_err_el (s : Elements) (x : ElementKind)
    (xs : List ElementKind) (e : TagErr) (hx : x ≠ ElementKind.Invalid)
    (h : s.add_Elements x = .error e) :
    s.addAll (x :: xs) = .error e := by
  simp [Elements.addAll, hx, h]

theorem Elements.addAll_ok_inv_el (l : List ElementKind) :
    ∀ s t : Elements, s.WF → s.addAll l = .ok t →
      t.WF ∧ t.members = s.members ++ l ∧
        t.elements_count = s.elements_count + l.length := by
  induction l with
  | nil =>
    intro s t hwf h
    cases Except.ok.inj h
    exact ⟨hwf, by simp, by simp⟩
  | cons x xs ih =>
    intro s t hwf h
    by_cases hxi : x = ElementKind.Invalid
    · subst hxi
      rw [Elements.addAll_cons_invalid s xs] at h
      exact Except.noConfusion h
    · cases hadd : s.add_Elements x with
      | error e =>
        rw [Elements.addAll_cons_err_el s x xs e hxi hadd] at h
        exact Except.noConfusion h
      | ok s' =>
        rw [Elements.addAll_cons_ok_el s s' x xs hxi hadd] at h
        obtain ⟨hwf', hm', hc'⟩ := Elements.wf_add_el s x s' hwf hadd
        obtain ⟨hwt, hmt, hct⟩ := ih s' t hwf' h
        refine ⟨hwt, ?_, ?_⟩
        · rw [hmt, hm']
          exact (List.append_cons s.members x xs).symm
        · rw [hct, hc', List.length_cons]
          omega

theorem Elements.addAll_ex_el (l : List ElementKind) :
    ∀ s : Elements, s.WF → l.Nodup → (∀ x ∈ l, x ∉ s.members) →
      (∀ x ∈ l, x ≠ ElementKind.Invalid) →
      ∃ t, s.addAll l = .ok t := by
  induction l with
  | nil =>
    intro s _ _ _ _
    exact ⟨s, rfl⟩
  | cons x xs ih =>
    intro s hwf hnd hdis hinv
    have hx : x ∉ s.members := hdis x (List.mem_cons_self x xs)
    have hxi : x ≠ ElementKind.Invalid := hinv x (List.mem_cons_self x xs)
    have hc : s.elements_count < ELEMENT_COUNT := Elements.count_lt s x hwf hx hxi
    have hadd := Elements.add_mk_ok_el s x hx hxi hc
    obtain ⟨hwf', hm', hc'⟩ :=
      Elements.wf_add_el s x ⟨s.elements_count + 1, s.elements.set s.elements_count x⟩ hwf hadd
    have hxxs : x ∉ xs := (List.nodup_cons.mp hnd).1
    have hdis2 : ∀ y ∈ xs,
        y ∉ (Elements.mk (s.elements_count + 1) (s.elements.set s.elements_count x)).members := by
      intro y hy
      rw [hm', List.mem_append, List.mem_singleton]
      push_neg
      exact ⟨hdis y (List.mem_cons_of_mem x hy), fun hyx => hxxs (hyx ▸ hy)⟩
    obtain ⟨t, ht⟩ := ih _ hwf' (List.nodup_cons.mp hnd).2 hdis2
      (fun y hy => hinv y (List.mem_cons_of_mem x hy))
    exact ⟨t, by rw [Elements.addAll_cons_ok_el s _ x xs hxi hadd]; exact ht⟩

theorem Elements.addAll_err (l : List ElementKind) :
    ∀ s : Elements, s.WF → ∀ e : TagErr, s.addAll l = .error e →
      e = .duplicateTag ∨ e = .invalidTagValue := by
  induction l with
  | nil =>
    intro s _ e h
    exact Except.noConfusion h
  | cons x xs ih =>
    intro s hwf e h
    by_cases hxi : x = ElementKind.Invalid
    · subst hxi
      rw [Elements.addAll_cons_invalid s xs] at h
      exact Or.inr (Except.error.inj h).symm
    · by_cases hx : x ∈ s.members
      · rw [Elements.addAll_cons_err_el s x xs _ hxi (Elements.add_dup_el s x hx)] at h
        exact Or.inl (Except.error.inj h).symm
      · have hc : s.elements_count < ELEMENT_COUNT := Elements.count_lt s x hwf hx hxi
        have hadd := Elements.add_mk_ok_el s x hx hxi hc
        obtain ⟨hwf', _, _⟩ :=
          Elements.wf_add_el s x ⟨s.elements_count + 1, s.elements.set s.elements_count x⟩ hwf hadd
        rw [Elements.addAll_cons_ok_el s _ x xs hxi hadd] at h
        exact ih _ hwf' e h

/-- The zero-count all-`Invalid` array `Elements::new` starts from is
well formed. -/
theorem Elements.init_wf : (Elements.mk 0 (List.replicate ELEMENT_COUNT ElementKind.Invalid)).WF := by
  decide

theorem Elements.new_nil : Elements.new [] = .error .emptyList := rfl

theorem Elements.new_ok_el (l : List ElementKind) (hne : l ≠ [])
    (hnd : l.Nodup) (hinv : ∀ x ∈ l, x ≠ ElementKind.Invalid) :
    ∃ t, Elements.new l = .ok t ∧ t.WF ∧ t.members = l ∧
      t.elements_count = l.length := by
  obtain ⟨t, ht⟩ := Elements.addAll_ex_el l
    (Elements.mk 0 (List.replicate ELEMENT_COUNT ElementKind.Invalid))
    Elements.init_wf hnd (by intro x _ hx; simp [Elements.members] at hx) hinv
  obtain ⟨hwt, hmt, hct⟩ := Elements.addAll_ok_inv_el l _ t Elements.init_wf ht
  refine ⟨t, ?_, hwt, ?_, ?_⟩
  · unfold Elements.new
    rw [if_neg (by simpa [List.length_eq_zero] using hne)]
    exact ht
  · simpa [Elements.members] using hmt
  · simpa using hct

theorem Elements.new_ok_inv_el (l : List ElementKind) (t : Elements)
    (h : Elements.new l = .ok t) :
    t.WF ∧ t.members = l ∧ t.elements_count = l.length := by
  unfold Elements.new at h
  by_cases hl : l.length = 0
  · rw [if_pos hl] at h
    exact Except.noConfusion h
  · rw [if_neg hl] at h
    obtain ⟨hwt, hmt, hct⟩ := Elements.addAll_ok_inv_el l _ t Elements.init_wf h
    refine ⟨hwt, ?_, ?_⟩
    · simpa [Elements.members] using hmt
    · simpa using hct

theorem Elements.new_err (l : List ElementKind) (e : TagErr)
    (h : Elements.new l = .error e) :
    e = .emptyList ∨ e = .duplicateTag ∨ e = .invalidTagValue := by
  unfold Elements.new at h
  by_cases hl : l.length = 0
  · rw [if_pos hl] at h
    exact Or.inl (Except.error.inj h).symm
  · rw [if_neg hl] at h
    exact Or.inr (Elements.addAll_err l _ Elements.init_wf e h)

/-- A well-formed set never holds the sentinel among its members. -/
theorem Elements.wf_no_invalid (s : Elements) (hwf : s.WF) :
    s.has_Elements ElementKind.Invalid = false := by
  obtain ⟨_, _, _, hinv⟩ := hwf
  simp only [Elements.has_Elements, decide_eq_false_iff_not]
  exact fun hmem => hinv _ hmem rfl

theorem Elements.get_Elementss_eq (s : Elements) (hwf : s.WF) :
    s.get_Elementss = s.members := by
  obtain ⟨hlen, hcnt, _, _⟩ := hwf
  exact range_map_getD_eq_take s.elements ElementKind.Invalid s.elements_count
    (by rw [hlen]; exact hcnt)

/-! ## Interner claims -/

/-- Claim C1 (code-bug evaluation): interning through `GlobalString::new` is
not idempotent.  On the freshly initialised interner (where `""` is
pre-interned with id 0), the first `new("")` returns handle 0 but, because
`new` unconditionally overwrites the forward-map entry with the current
`next_id`, the second `new("")` returns handle 1 — a different handle for
the same text, and one that is out of bounds of the reverse table. -/
theorem intern_not_idempotent :
    (GlobalString.new "" initMaps).1 = ⟨0⟩ ∧
    (GlobalString.new "" (GlobalString.new "" initMaps).2).1 = ⟨1⟩ ∧
    (GlobalString.new "" initMaps).1 ≠
      (GlobalString.new "" (GlobalString.new "" initMaps).2).1 ∧
    GlobalString.to_string (GlobalString.new "" (GlobalString.new "" initMaps).2).1
      (GlobalString.new "" (GlobalString.new "" initMaps).2).2 = none := by
  decide

/-- Claim C2 (code-bug evaluation): `resolve(intern(s)) = s` fails.  After
the call sequence `new "a"`, `new "a"`, `new "b"` from the fresh interner,
a further `new "a"` returns handle 2 — the handle of `"b"` — so resolving it
yields `"b"`, not `"a"` (the overwritten map entry for `"a"` points at the
id later assigned to `"b"`).  `default_handle` still resolves to `""` in
that state. -/
theorem resolve_intern_mismatch :
    GlobalString.to_string
        (GlobalString.new "a"
          (GlobalString.new "b"
            (GlobalString.new "a" (GlobalString.new "a" initMaps).2).2).2).1
        (GlobalString.new "a"
          (GlobalString.new "b"
            (GlobalString.new "a" (GlobalString.new "a" initMaps).2).2).2).2
      = some "b" ∧
    some "b" ≠ some "a" ∧
    GlobalString.to_string GlobalString.default
        (GlobalString.new "a"
          (GlobalString.new "b"
            (GlobalString.new "a" (GlobalString.new "a" initMaps).2).2).2).2
      = some "" := by
  decide

/-- Claim C3 (counterexample): `new_if_exists` of a never-interned text does
not return "none" — it returns `GlobalString::default()`, the valid handle 0
of the empty string, indistinguishable from a successful lookup of the
interned `""`. -/
theorem lookup_absent_returns_default_cex :
    (GlobalString.new_if_exists "x" initMaps).1 = GlobalString.default ∧
    GlobalString.to_string (GlobalString.new_if_exists "x" initMaps).1 initMaps
      = some "" ∧
    (GlobalString.new_if_exists "x" initMaps).1 =
      (GlobalString.new_if_exists "" initMaps).1 := by
  decide

/-- Claim C3 (amended): `new_if_exists` never mutates the interner state; it
returns the handle currently stored in the forward map when the text is
present — the same handle a `new` call would return — and
`GlobalString::default()` (the empty string's handle 0, not a
distinguishable "none") when absent. -/
theorem lookup_if_present_behavior (s : String) (st : GlobalStringMaps) :
    (GlobalString.new_if_exists s st).2 = st ∧
    (alGet st.map s = none →
      (GlobalString.new_if_exists s st).1 = GlobalString.default) ∧
    ∀ id, alGet st.map s = some id →
      (GlobalString.new_if_exists s st).1 = ⟨id⟩ ∧
      (GlobalString.new_if_exists s st).1 = (GlobalString.new s st).1 := by
  refine ⟨?_, ?_, ?_⟩
  · cases h : alGet st.map s <;> simp [GlobalString.new_if_exists, h]
  · intro h
    simp [GlobalString.new_if_exists, h]
  · intro id h
    have hins : (alInsertRet st.map s st.next_id).1 = some id := by
      rw [alInsertRet_fst]; exact h
    constructor
    · simp [GlobalString.new_if_exists, h]
    · simp [GlobalString.new_if_exists, GlobalString.new, h, hins]

/-- Witness for the amended C3 at the concrete input `("", initMaps)`. -/
theorem lookup_if_present_behavior_witness :
    (GlobalString.new_if_exists "" initMaps).2 = initMaps ∧
    (GlobalString.new_if_exists "" initMaps).1 = ⟨0⟩ ∧
    (GlobalString.new_if_exists "" initMaps).1 = (GlobalString.new "" initMaps).1 := by
  refine ⟨(lookup_if_present_behavior "" initMaps).1, ?_, ?_⟩
  · exact ((lookup_if_present_behavior "" initMaps).2.2 0 (by decide)).1
  · exact ((lookup_if_present_behavior "" initMaps).2.2 0 (by decide)).2

/-! ## Registry claims -/

/-- Claim C4: `new_ability` succeeds exactly when `is_ability_name` holds,
and on an unregistered name it fails with `nameNotFound` (the source's
`.expect` panic) instead of returning an instance. -/
theorem new_ability_iff_is_ability_name (m : AbilityMap) (n : String) :
    (m.new_ability n).isOk = m.is_ability_name n ∧
    (m.is_ability_name n = false → m.new_ability n = .error .nameNotFound) := by
  cases h : alGet m.map n <;>
    simp [AbilityMap.new_ability, AbilityMap.is_ability_name, h, Except.isOk,
      Except.toBool]

/-- Witness for C4 at a concrete registry: the empty registry with the
absent name `"x"`, and a one-entry registry where `"x"` is present. -/
theorem new_ability_iff_is_ability_name_witness :
    AbilityMap.new.new_ability "x" = .error .nameNotFound ∧
    ((AbilityMap.new.add_ability ⟨"x", 7⟩).new_ability "x").isOk =
      (AbilityMap.new.add_ability ⟨"x", 7⟩).is_ability_name "x" := by
  refine ⟨(new_ability_iff_is_ability_name AbilityMap.new "x").2 (by decide), ?_⟩
  exact (new_ability_iff_is_ability_name (AbilityMap.new.add_ability ⟨"x", 7⟩) "x").1

/-- Inserting under a key that is already present replaces its entry and
does not grow the map. -/
theorem length_insertRet_of_mem {α : Type} (m : List (String × α)) (k : String)
    (v v0 : α) (h : alGet m k = some v0) :
    ((alInsertRet m k v).2).length = m.length := by
  induction m with
  | nil => simp [alGet] at h
  | cons p rest ih =>
    obtain ⟨k', v'⟩ := p
    by_cases hk : k' = k
    · rw [alInsertRet_cons_pos rest k' k v' v hk]
      simp
    · rw [alInsertRet_cons_neg rest k' k v' v hk]
      have hrest : alGet rest k = some v0 := by
        simpa [alGet, hk] using h
      simp [ih hrest]

/-- Claim C5: registering two ability kinds under one name silently
overwrites.  Starting from any registry whose key list is duplicate-free (as
every `HashMap` image is), after `add_ability k1` then `add_ability k2` with
`k1.static_name = k2.static_name`, the second registration replaces the
first in place (the registry does not grow), the registry holds exactly one
entry for that name, and `new_ability` of that name invokes the most
recently registered constructor, `k2`. -/
theorem duplicate_registration_overwrites (m : AbilityMap) (k1 k2 : AbilityKind)
    (hnodup : (m.map.map Prod.fst).Nodup)
    (hname : k1.static_name = k2.static_name) :
    countKey ((m.add_ability k1).add_ability k2).map k2.static_name = 1 ∧
    ((m.add_ability k1).add_ability k2).map.length = (m.add_ability k1).map.length ∧
    ((m.add_ability k1).add_ability k2).new_ability k2.static_name = .ok k2 := by
  have h1 : ((m.add_ability k1).map.map Prod.fst).Nodup :=
    keys_nodup_insertRet m.map k1.static_name k1 hnodup
  refine ⟨?_, ?_, ?_⟩
  · exact countKey_insertRet (m.add_ability k1).map k2.static_name k2 h1
  · have hmem : alGet (m.add_ability k1).map k2.static_name = some k1 := by
      rw [← hname]
      exact alGet_insertRet_self m.map k1.static_name k1
    exact length_insertRet_of_mem (m.add_ability k1).map k2.static_name k2 k1 hmem
  · have hget : alGet ((m.add_ability k1).add_ability k2).map k2.static_name = some k2 :=
      alGet_insertRet_self (m.add_ability k1).map k2.static_name k2
    simp [AbilityMap.new_ability, hget]

/-- Witness for C5: two distinct constructors registered under the name
`"x"` into the empty registry; the second wins. -/
theorem duplicate_registration_overwrites_witness :
    countKey ((AbilityMap.new.add_ability ⟨"x", 1⟩).add_ability ⟨"x", 2⟩).map "x" = 1 ∧
    ((AbilityMap.new.add_ability ⟨"x", 1⟩).add_ability ⟨"x", 2⟩).map.length =
      ((AbilityMap.new.add_ability ⟨"x", 1⟩)).map.length ∧
    ((AbilityMap.new.add_ability ⟨"x", 1⟩).add_ability ⟨"x", 2⟩).new_ability "x" =
      .ok ⟨"x", 2⟩ := by
  exact duplicate_registration_overwrites AbilityMap.new ⟨"x", 1⟩ ⟨"x", 2⟩
    (by decide) (by decide)

/-! ## Tag-set claims -/

/-- Claim C6 (counterexample): `AbilityNames::add_ability` performs no
sentinel check, so adding `GlobalString::default()` to the empty set
succeeds and the sentinel becomes a member — refuting "add of the sentinel
fails with InvalidTagValue" for the ability-name instantiation. -/
theorem ability_names_accepts_sentinel_cex :
    AbilityNames.default.add_ability GlobalString.default =
      .ok (AbilityNames.mk (List.replicate MAX_ABILITIES_COUNT GlobalString.default) 1) ∧
    (AbilityNames.mk (List.replicate MAX_ABILITIES_COUNT GlobalString.default) 1).has_ability
      GlobalString.default = true :=
  ⟨rfl, rfl⟩

/-- Claim C6 (amended): for `Elements` the claim holds — on every
well-formed set, `Invalid` is never a member and adding it fails with
`invalidTagValue`, and every set produced by `new` or a successful add on a
well-formed set is sentinel-free.  `AbilityNames`, however, has no sentinel
check: on any well-formed set not containing `GlobalString::default()` and
with room left, adding the sentinel succeeds and makes it a member. -/
theorem sentinel_membership :
    (∀ s : Elements, s.WF →
      s.has_Elements ElementKind.Invalid = false ∧
      s.add_Elements ElementKind.Invalid = .error .invalidTagValue) ∧
    (∀ (l : List ElementKind) (t : Elements), Elements.new l = .ok t →
      t.has_Elements ElementKind.Invalid = false) ∧
    (∀ (s t : Elements) (x : ElementKind), s.WF → s.add_Elements x = .ok t →
      t.has_Elements ElementKind.Invalid = false) ∧
    (∀ s : AbilityNames, s.WF → s.has_ability GlobalString.default = false →
      s.count < MAX_ABILITIES_COUNT →
      ∃ t, s.add_ability GlobalString.default = .ok t ∧
        t.has_ability GlobalString.default = true) := by
  refine ⟨?_, ?_, ?_, ?_⟩
  · intro s hwf
    refine ⟨Elements.wf_no_invalid s hwf, ?_⟩
    apply Elements.add_invalid
    have hfalse := Elements.wf_no_invalid s hwf
    simpa [Elements.has_Elements] using hfalse
  · intro l t h
    exact Elements.wf_no_invalid t (Elements.new_ok_inv_el l t h).1
  · intro s t x hwf h
    exact Elements.wf_no_invalid t (Elements.wf_add_el s x t hwf h).1
  · intro s hwf hno hc
    have hnm : GlobalString.default ∉ s.members := by
      simpa [AbilityNames.has_ability] using hno
    refine ⟨⟨s.names.set s.count GlobalString.default, s.count + 1⟩,
      AbilityNames.add_mk_ok s GlobalString.default hnm hc, ?_⟩
    have hm := AbilityNames.members_mk s GlobalString.default
      (by obtain ⟨hlen, _, _⟩ := hwf; rw [hlen]; exact hc)
    simp only [AbilityNames.has_ability, hm]
    simp

/-- Witness for the amended C6 at concrete sets: a one-element `Elements`
set and the empty `AbilityNames` set. -/
theorem sentinel_membership_witness :
    (Elements.mk 1 (ElementKind.Fire :: List.replicate 10 ElementKind.Invalid)).has_Elements
        ElementKind.Invalid = false ∧
    (Elements.mk 1 (ElementKind.Fire :: List.replicate 10 ElementKind.Invalid)).add_Elements
        ElementKind.Invalid = .error .invalidTagValue ∧
    ∃ t, AbilityNames.default.add_ability GlobalString.default = .ok t ∧
      t.has_ability GlobalString.default = true := by
  refine ⟨(sentinel_membership.1 _ (by decide)).1,
    (sentinel_membership.1 _ (by decide)).2,
    sentinel_membership.2.2.2 AbilityNames.default (by decide) (by decide) (by decide)⟩

/-- Claim C7 (counterexample): on the full `Elements` set holding all 11
valid kinds, adding the one remaining value — the sentinel `Invalid` — fails
with `invalidTagValue`, not `capacityExceeded` as the claim requires when
`count == N`.  (`Elements` can never fail with `capacityExceeded` at all;
see the amended theorem.) -/
theorem elements_full_add_invalid_cex :
    (Elements.new [ElementKind.Standard, ElementKind.Fire, ElementKind.Water,
        ElementKind.Nature, ElementKind.Electric, ElementKind.Air,
        ElementKind.Ground, ElementKind.Metal, ElementKind.Light,
        ElementKind.Dark, ElementKind.Dragon]).map Elements.get_Elements_count =
      .ok ELEMENT_COUNT ∧
    (Elements.new [ElementKind.Standard, ElementKind.Fire, ElementKind.Water,
        ElementKind.Nature, ElementKind.Electric, ElementKind.Air,
        ElementKind.Ground, ElementKind.Metal, ElementKind.Light,
        ElementKind.Dark, ElementKind.Dragon]).bind
      (fun s => s.add_Elements ElementKind.Invalid) = .error .invalidTagValue ∧
    Except.error .invalidTagValue ≠
      (Except.error .capacityExceeded : Except TagErr Elements) := by
  refine ⟨rfl, rfl, fun h => absurd (Except.error.inj h) (by decide)⟩

/-- Claim C7 (amended): on well-formed sets, `add` fails with
`duplicateTag` on a member; for `AbilityNames` a non-member with the set
full fails with `capacityExceeded` and otherwise the item is appended at the
end with the count incremented by one and the existing members untouched.
For `Elements` a non-member sentinel fails with `invalidTagValue`, any other
non-member is appended (room is automatic: only 11 distinct non-sentinel
kinds exist), and no `add_Elements` call ever fails with
`capacityExceeded`. -/
theorem add_characterization :
    (∀ (s : AbilityNames) (x : GlobalString), s.WF →
      (s.has_ability x = true → s.add_ability x = .error .duplicateTag) ∧
      (s.has_ability x = false → s.count = MAX_ABILITIES_COUNT →
        s.add_ability x = .error .capacityExceeded) ∧
      (s.has_ability x = false → s.count < MAX_ABILITIES_COUNT →
        ∃ t, s.add_ability x = .ok t ∧ t.members = s.members ++ [x] ∧
          t.count = s.count + 1)) ∧
    (∀ (s : Elements) (y : ElementKind), s.WF →
      (s.has_Elements y = true → s.add_Elements y = .error .duplicateTag) ∧
      (s.has_Elements y = false → y = ElementKind.Invalid →
        s.add_Elements y = .error .invalidTagValue) ∧
      (s.has_Elements y = false → y ≠ ElementKind.Invalid →
        ∃ t, s.add_Elements y = .ok t ∧ t.members = s.members ++ [y] ∧
          t.elements_count = s.elements_count + 1) ∧
      s.add_Elements y ≠ .error .capacityExceeded) := by
  constructor
  · intro s x hwf
    refine ⟨?_, ?_, ?_⟩
    · intro hmem
      exact AbilityNames.add_dup s x (by simpa [AbilityNames.has_ability] using hmem)
    · intro hno hfull
      exact AbilityNames.add_cap s x
        (by simpa [AbilityNames.has_ability] using hno) (by omega)
    · intro hno hc
      have hnm : x ∉ s.members := by simpa [AbilityNames.has_ability] using hno
      have hadd := AbilityNames.add_mk_ok s x hnm hc
      obtain ⟨_, hm, hcnt⟩ := AbilityNames.wf_add s x _ hwf hadd
      exact ⟨_, hadd, hm, hcnt⟩
  · intro s y hwf
    refine ⟨?_, ?_, ?_, Elements.add_ne_cap s y⟩
    · intro hmem
      exact Elements.add_dup_el s y (by simpa [Elements.has_Elements] using hmem)
    · intro hno hy
      subst hy
      exact Elements.add_invalid s (by simpa [Elements.has_Elements] using hno)
    · intro hno hy
      have hnm : y ∉ s.members := by simpa [Elements.has_Elements] using hno
      have hc := Elements.count_lt s y hwf hnm hy
      have hadd := Elements.add_mk_ok_el s y hnm hy hc
      obtain ⟨_, hm, hcnt⟩ := Elements.wf_add_el s y _ hwf hadd
      exact ⟨_, hadd, hm, hcnt⟩

/-- Witness for the amended C7 at concrete sets. -/
theorem add_characterization_witness :
    (∃ t, AbilityNames.default.add_ability ⟨1⟩ = .ok t ∧
      t.members = AbilityNames.default.members ++ [⟨1⟩] ∧
      t.count = AbilityNames.default.count + 1) ∧
    (Elements.mk 1 (ElementKind.Fire :: List.replicate 10 ElementKind.Invalid)).add_Elements
        ElementKind.Fire = .error .duplicateTag ∧
    (Elements.mk 1 (ElementKind.Fire :: List.replicate 10 ElementKind.Invalid)).add_Elements
        ElementKind.Invalid ≠ .error .capacityExceeded := by
  refine ⟨(add_characterization.1 AbilityNames.default ⟨1⟩ (by decide)).2.2
      (by decide) (by decide),
    (add_characterization.2 _ ElementKind.Fire (by decide)).1 (by decide),
    (add_characterization.2 _ ElementKind.Invalid (by decide)).2.2.2⟩

/-- Claim C8 (counterexample): `Elements::new` of the empty list does not
succeed — it fails on the `assert!(in_Elementss.len() > 0)`. -/
theorem elements_new_empty_cex : Elements.new [] = .error .emptyList := rfl

/-- Claim C8 (amended): `AbilityNames::new` behaves exactly as claimed —
`capacityExceeded` for more than 5 items, `duplicateTag` for a repeated item
within capacity, and full success (members exactly the input, in order) for
any duplicate-free list of at most 5 items including the empty one.
`Elements::new` additionally rejects the empty list, succeeds exactly on
duplicate-free nonempty sentinel-free lists, and can only fail with
`emptyList`, `duplicateTag` or `invalidTagValue` — never `capacityExceeded`
(overlong lists necessarily repeat a kind or contain the sentinel).  Both
constructors return either a complete set or an error, never a partial
set. -/
theorem from_list_characterization :
    (∀ l : List GlobalString, MAX_ABILITIES_COUNT < l.length →
      AbilityNames.new l = .error .capacityExceeded) ∧
    (∀ l : List GlobalString, l.length ≤ MAX_ABILITIES_COUNT → l.Nodup →
      ∃ t, AbilityNames.new l = .ok t ∧ t.members = l ∧ t.count = l.length) ∧
    (∀ l : List GlobalString, l.length ≤ MAX_ABILITIES_COUNT → ¬l.Nodup →
      AbilityNames.new l = .error .duplicateTag) ∧
    Elements.new [] = .error .emptyList ∧
    (∀ l : List ElementKind, l ≠ [] → l.Nodup →
      (∀ x ∈ l, x ≠ ElementKind.Invalid) →
      ∃ t, Elements.new l = .ok t ∧ t.members = l ∧ t.elements_count = l.length) ∧
    (∀ (l : List ElementKind) (e : TagErr), Elements.new l = .error e →
      e = .emptyList ∨ e = .duplicateTag ∨ e = .invalidTagValue) := by
  refine ⟨AbilityNames.new_cap, ?_, AbilityNames.new_dup, Elements.new_nil, ?_,
    Elements.new_err⟩
  · intro l hle hnd
    obtain ⟨t, h1, _, h3, h4⟩ := AbilityNames.new_ok l hle hnd
    exact ⟨t, h1, h3, h4⟩
  · intro l hne hnd hinv
    obtain ⟨t, h1, _, h3, h4⟩ := Elements.new_ok_el l hne hnd hinv
    exact ⟨t, h1, h3, h4⟩

/-- Witness for the amended C8 at concrete lists. -/
theorem from_list_characterization_witness :
    AbilityNames.new [⟨1⟩, ⟨2⟩, ⟨3⟩, ⟨4⟩, ⟨5⟩, ⟨6⟩] = .error .capacityExceeded ∧
    (∃ t, AbilityNames.new [⟨1⟩, ⟨2⟩] = .ok t ∧ t.members = [⟨1⟩, ⟨2⟩] ∧
      t.count = 2) ∧
    AbilityNames.new [⟨1⟩, ⟨1⟩] = .error .duplicateTag ∧
    (∃ t, Elements.new [ElementKind.Fire] = .ok t ∧
      t.members = [ElementKind.Fire] ∧ t.elements_count = 1) ∧
    (TagErr.emptyList = .emptyList ∨ TagErr.emptyList = .duplicateTag ∨
      TagErr.emptyList = .invalidTagValue) := by
  refine ⟨from_list_characterization.1 _ (by decide),
    from_list_characterization.2.1 [⟨1⟩, ⟨2⟩] (by decide) (by decide),
    from_list_characterization.2.2.1 _ (by decide) (by decide),
    from_list_characterization.2.2.2.2.1 [ElementKind.Fire] (by decide) (by decide)
      (by decide),
    from_list_characterization.2.2.2.2.2 [] .emptyList rfl⟩

/-- Claim C9: for every list on which the constructor succeeds, `to_list`
(`get_names` / `get_Elementss`, the latter accumulated through the
iterator's reads) returns exactly the input list in order, and `count`
(`get_count` / `get_Elements_count`) equals its length. -/
theorem to_list_roundtrip :
    (∀ (l : List GlobalString) (t : AbilityNames), AbilityNames.new l = .ok t →
      t.get_names = l ∧ t.get_count = l.length) ∧
    (∀ (l : List ElementKind) (t : Elements), Elements.new l = .ok t →
      t.get_Elementss = l ∧ t.get_Elements_count = l.length) := by
  constructor
  · intro l t h
    obtain ⟨hwf, hm, hc⟩ := AbilityNames.new_ok_inv l t h
    exact ⟨by rw [AbilityNames.get_names_eq t hwf, hm], hc⟩
  · intro l t h
    obtain ⟨hwf, hm, hc⟩ := Elements.new_ok_inv_el l t h
    exact ⟨by rw [Elements.get_Elementss_eq t hwf, hm], hc⟩

/-- Witness for C9 at concrete one-element constructions. -/
theorem to_list_roundtrip_witness :
    (AbilityNames.mk [⟨1⟩, ⟨0⟩, ⟨0⟩, ⟨0⟩, ⟨0⟩] 1).get_names = [⟨1⟩] ∧
    (AbilityNames.mk [⟨1⟩, ⟨0⟩, ⟨0⟩, ⟨0⟩, ⟨0⟩] 1).get_count = 1 ∧
    (Elements.mk 1 (ElementKind.Fire :: List.replicate 10 ElementKind.Invalid)).get_Elementss =
      [ElementKind.Fire] ∧
    (Elements.mk 1 (ElementKind.Fire :: List.replicate 10 ElementKind.Invalid)).get_Elements_count
      = 1 := by
  refine ⟨(to_list_roundtrip.1 [⟨1⟩] (AbilityNames.mk [⟨1⟩, ⟨0⟩, ⟨0⟩, ⟨0⟩, ⟨0⟩] 1) rfl).1,
    (to_list_roundtrip.1 [⟨1⟩] (AbilityNames.mk [⟨1⟩, ⟨0⟩, ⟨0⟩, ⟨0⟩, ⟨0⟩] 1) rfl).2,
    (to_list_roundtrip.2 [ElementKind.Fire]
      (Elements.mk 1 (ElementKind.Fire :: List.replicate 10 ElementKind.Invalid)) rfl).1,
    (to_list_roundtrip.2 [ElementKind.Fire]
      (Elements.mk 1 (ElementKind.Fire :: List.replicate 10 ElementKind.Invalid)) rfl).2⟩

/-- Claim C10: every tag set reachable through the public operations is
well formed — the count stays within the capacity (5 / 11) and the first
`count` entries are pairwise distinct (for `Elements` also sentinel-free) —
and on well-formed `Elements` sets the write in `add_Elements` is always in
bounds: the bounds panic guarded only by a debug assertion is unreachable,
because a non-member non-sentinel item forces `count < 11` by pigeonhole. -/
theorem tag_set_invariants :
    AbilityNames.default.WF ∧
    (∀ (l : List GlobalString) (t : AbilityNames), AbilityNames.new l = .ok t →
      t.WF) ∧
    (∀ (s : AbilityNames) (x : GlobalString) (t : AbilityNames), s.WF →
      s.add_ability x = .ok t → t.WF) ∧
    (∀ (l : List ElementKind) (t : Elements), Elements.new l = .ok t → t.WF) ∧
    (∀ (s : Elements) (x : ElementKind) (t : Elements), s.WF →
      s.add_Elements x = .ok t → t.WF) ∧
    (∀ (s : Elements) (x : ElementKind), s.WF →
      s.add_Elements x ≠ .error .boundsPanic) := by
  refine ⟨AbilityNames.default_wf, ?_, ?_, ?_, ?_, ?_⟩
  · intro l t h
    exact (AbilityNames.new_ok_inv l t h).1
  · intro s x t hwf h
    exact (AbilityNames.wf_add s x t hwf h).1
  · intro l t h
    exact (Elements.new_ok_inv_el l t h).1
  · intro s x t hwf h
    exact (Elements.wf_add_el s x t hwf h).1
  · intro s x hwf h
    by_cases hx : x ∈ s.members
    · rw [Elements.add_dup_el s x hx] at h
      exact absurd (Except.error.inj h) (by decide)
    · by_cases hxi : x = ElementKind.Invalid
      · subst hxi
        rw [Elements.add_invalid s hx] at h
        exact absurd (Except.error.inj h) (by decide)
      · rw [Elements.add_mk_ok_el s x hx hxi (Elements.count_lt s x hwf hx hxi)] at h
        exact Except.noConfusion h

/-- Witness for C10 at concrete sets. -/
theorem tag_set_invariants_witness :
    (AbilityNames.mk [⟨1⟩, ⟨0⟩, ⟨0⟩, ⟨0⟩, ⟨0⟩] 1).WF ∧
    (Elements.mk 1 (ElementKind.Fire :: List.replicate 10 ElementKind.Invalid)).WF ∧
    (Elements.mk 1 (ElementKind.Fire :: List.replicate 10 ElementKind.Invalid)).add_Elements
        ElementKind.Water ≠ .error .boundsPanic := by
  refine ⟨tag_set_invariants.2.1 [⟨1⟩] (AbilityNames.mk [⟨1⟩, ⟨0⟩, ⟨0⟩, ⟨0⟩, ⟨0⟩] 1) rfl,
    tag_set_invariants.2.2.2.1 [ElementKind.Fire]
      (Elements.mk 1 (ElementKind.Fire :: List.replicate 10 ElementKind.Invalid)) rfl,
    tag_set_invariants.2.2.2.2.2
      (Elements.mk 1 (ElementKind.Fire :: List.replicate 10 ElementKind.Invalid))
      ElementKind.Water (by decide)⟩

end Immie2d
